import Mathlib

/-!
Verification development for the CipherLab cipher core
(`src/utils/RsaCipher.ts` (bundled with `PlayfairCipher.ts`), `src/utils/CaesarCipher.ts`,
`src/utils/RailFenceCipher.ts`).

Shallow embedding conventions:
* JS strings are `List Char`; JS numbers are `Nat` where the source only ever holds
  nonnegative integers, and `Int` where the source can hold negative values
  (extended-Euclid coefficients, RSA operands before range validation).
* The JS `%` operator on integers truncates toward zero; it is modelled by `Int.tmod`
  (`jsRem`).  On nonnegative operands it agrees with `Nat` `%`.
* `String.prototype.toLowerCase/toUpperCase` are modelled on the character repertoire
  the ciphers actually manipulate (ASCII letters, the Vietnamese base letters of the
  29-symbol alphabet and their tonal variants listed in the source's own diacritic
  table); all other characters are mapped to themselves.
* A JS expression that would throw at runtime (reading `[1]` of a 1-character string
  and calling a method on the resulting `undefined`, or the explicit `throw`
  statements) is modelled with `Except`.
-/

/-! ## JS string primitives -/

namespace Js

/-- Lower/upper pairs for `toUpperCase`/`toLowerCase`: ASCII letters, the seven
non-ASCII Vietnamese base letters, and the sixty tonal variants appearing in
`CaesarCipher.removeDiacritics`.  All other characters map to themselves. -/
def upperPairs : List (Char × Char) :=
  [('a','A'),('b','B'),('c','C'),('d','D'),('e','E'),('f','F'),('g','G'),
   ('h','H'),('i','I'),('j','J'),('k','K'),('l','L'),('m','M'),('n','N'),
   ('o','O'),('p','P'),('q','Q'),('r','R'),('s','S'),('t','T'),('u','U'),
   ('v','V'),('w','W'),('x','X'),('y','Y'),('z','Z'),
   ('ă','Ă'),('â','Â'),('đ','Đ'),('ê','Ê'),('ô','Ô'),('ơ','Ơ'),('ư','Ư'),
   ('á','Á'),('à','À'),('ả','Ả'),('ã','Ã'),('ạ','Ạ'),
   ('ắ','Ắ'),('ằ','Ằ'),('ẳ','Ẳ'),('ẵ','Ẵ'),('ặ','Ặ'),
   ('ấ','Ấ'),('ầ','Ầ'),('ẩ','Ẩ'),('ẫ','Ẫ'),('ậ','Ậ'),
   ('é','É'),('è','È'),('ẻ','Ẻ'),('ẽ','Ẽ'),('ẹ','Ẹ'),
   ('ế','Ế'),('ề','Ề'),('ể','Ể'),('ễ','Ễ'),('ệ','Ệ'),
   ('í','Í'),('ì','Ì'),('ỉ','Ỉ'),('ĩ','Ĩ'),('ị','Ị'),
   ('ó','Ó'),('ò','Ò'),('ỏ','Ỏ'),('õ','Õ'),('ọ','Ọ'),
   ('ố','Ố'),('ồ','Ồ'),('ổ','Ổ'),('ỗ','Ỗ'),('ộ','Ộ'),
   ('ớ','Ớ'),('ờ','Ờ'),('ở','Ở'),('ỡ','Ỡ'),('ợ','Ợ'),
   ('ú','Ú'),('ù','Ù'),('ủ','Ủ'),('ũ','Ũ'),('ụ','Ụ'),
   ('ứ','Ứ'),('ừ','Ừ'),('ử','Ử'),('ữ','Ữ'),('ự','Ự'),
   ('ý','Ý'),('ỳ','Ỳ'),('ỷ','Ỷ'),('ỹ','Ỹ'),('ỵ','Ỵ')]

def lowerPairs : List (Char × Char) := upperPairs.map (fun p => (p.2, p.1))

/-- First-match association lookup (the semantics of a JS object-literal map). -/
def assocLookup (c : Char) : List (Char × Char) → Option Char
  | [] => none
  | (k, v) :: rest => if k = c then some v else assocLookup c rest

/-- Model of `char.toUpperCase()` for a single character. -/
def toUpper (c : Char) : Char := (assocLookup c upperPairs).getD c

/-- Model of `char.toLowerCase()` for a single character. -/
def toLower (c : Char) : Char := (assocLookup c lowerPairs).getD c

def indexOfAux (c : Char) : List Char → Nat → Option Nat
  | [], _ => none
  | a :: l, i => if a = c then some i else indexOfAux c l (i + 1)

/-- Model of `String.prototype.indexOf` for a single-character needle:
index of the first occurrence, `-1` if absent. -/
def indexOf (hay : List Char) (c : Char) : Int :=
  match indexOfAux c hay 0 with
  | some i => (i : Int)
  | none => -1

/-- JS `%` on integers: remainder truncated toward zero. -/
def jsRem (a b : Int) : Int := Int.tmod a b

end Js

/-! ## RsaCipher (from `src/utils/RsaCipher.ts`, bundled into `PlayfairCipher.ts`) -/

namespace RsaCipher

/-- One row of the extended Euclidean trace (`EuclideanStep` interface). -/
structure EuclideanStep where
  q : Int
  r1 : Int
  r2 : Int
  r : Int
  t1 : Int
  t2 : Int
  t : Int
deriving Repr, DecidableEq

/-- One bit-processing step of `modExpWithSteps` (`ModExpStep` interface);
`z` is the optional multiplication value recorded when the bit is 1. -/
structure ModExpStep where
  i : Nat
  bit : Nat
  p : Nat
  pSquared : Nat
  pMod : Nat
  z : Option Nat
  result : Nat
deriving Repr, DecidableEq

structure ModExpResult where
  result : Nat
  steps : List ModExpStep
deriving Repr, DecidableEq

/-- `RsaCipher.isPrime` trial-division loop `for (let i = 5; i * i <= num; i += 6)`,
made structural with a fuel argument.  Each iteration increases `i`, so any fuel
of at least `num + 1` iterations can never be exhausted. -/
def isPrimeLoop (fuel num i : Nat) : Bool :=
  match fuel with
  | 0 => true
  | fuel + 1 =>
    if i * i ≤ num then
      if num % i = 0 || num % (i + 2) = 0 then false
      else isPrimeLoop fuel num (i + 6)
    else true

/-- `RsaCipher.isPrime`. -/
def isPrime (num : Nat) : Bool :=
  if num ≤ 1 then false
  else if num ≤ 3 then true
  else if num % 2 = 0 || num % 3 = 0 then false
  else isPrimeLoop (num + 1) num 5

/-- `RsaCipher.gcd` (Euclidean recursion), made structural with a fuel argument;
the second argument strictly decreases at every call, so fuel `b + 1` is never
exhausted. -/
def gcdFuel (fuel a b : Nat) : Nat :=
  match fuel with
  | 0 => a
  | fuel + 1 => if b = 0 then a else gcdFuel fuel b (a % b)

/-- `RsaCipher.gcd`. -/
def gcd (a b : Nat) : Nat := gcdFuel (b + 1) a b

/-- The `while (r2 > 0)` loop of `modInverseWithSteps`, made structural with a
fuel argument; `r2` is replaced by `r1 % r2 < r2` at every iteration, so any
fuel exceeding the initial `r2` is never exhausted.  Remainders stay
nonnegative throughout and are carried as `Nat`; the Bézout coefficients can go
negative and are carried as `Int`. -/
def euclidLoop (fuel : Nat) (r1 r2 : Nat) (t1 t2 : Int) (acc : List EuclideanStep) :
    Int × List EuclideanStep :=
  match fuel with
  | 0 => (t1, acc)
  | fuel + 1 =>
    if 0 < r2 then
      let q := r1 / r2
      let r := r1 - q * r2
      let t := t1 - (q : Int) * t2
      euclidLoop fuel r2 r t2 t
        (acc ++ [⟨(q : Int), (r1 : Int), (r2 : Int), (r : Int), t1, t2, t⟩])
    else (t1, acc)

/-- `RsaCipher.modInverseWithSteps`. -/
def modInverseWithSteps (e m : Nat) : Int × List EuclideanStep :=
  if m = 1 then (0, [])
  else
    let res := euclidLoop (e + 1) m e 0 1 []
    (if res.1 < 0 then res.1 + m else res.1, res.2)

/-- Binary digits of a natural number, most significant first, as produced by
JS `exponent.toString(2)` (so `0` yields the single digit `0`); structural with
a fuel argument, where fuel `n` covers the at most `log2 n` halving steps. -/
def natToBinaryFuel (fuel n : Nat) : List Nat :=
  match fuel with
  | 0 => [n]
  | fuel + 1 => if n < 2 then [n] else natToBinaryFuel fuel (n / 2) ++ [n % 2]

def natToBinary (n : Nat) : List Nat := natToBinaryFuel n n

/-- The bit loop of `modExpWithSteps`.  When the bit at loop index `k` of a
digit list of length `L` is processed, `rest` has length `L - k - 1`, which is
exactly the recorded `i` ("bit position from right to left"). -/
def modExpGo (modulus : Nat) (bits : List Nat) (result p : Nat)
    (acc : List ModExpStep) : ModExpResult :=
  match bits with
  | [] => ⟨result, acc⟩
  | bit :: rest =>
    let pSquared := p * p
    let pMod := pSquared % modulus
    let result' := if bit = 1 then (result * p) % modulus else result
    let z : Option Nat := if bit = 1 then some (result * p) else none
    modExpGo modulus rest result' pMod
      (acc ++ [⟨rest.length, bit, p, pSquared, pMod, z, result'⟩])

/-- `RsaCipher.modExpWithSteps`. -/
def modExpWithSteps (base exponent modulus : Nat) : ModExpResult :=
  if modulus = 1 then ⟨0, []⟩
  else modExpGo modulus (natToBinary exponent) 1 (base % modulus) []

inductive RsaError where
  | nonPrimeP
  | nonPrimeQ
  | duplicatePrimes
  | exponentNotCoprime
  | noValidExponent
  | messageOutOfRange
deriving Repr, DecidableEq

structure RsaPublicKey where
  e : Nat
  n : Nat
deriving Repr, DecidableEq

structure RsaPrivateKey where
  d : Nat
  n : Nat
deriving Repr, DecidableEq

structure RsaParams where
  p : Nat
  q : Nat
  n : Nat
  totient : Nat
  e : Nat
  d : Nat
deriving Repr, DecidableEq

structure RsaKeyPair where
  publicKey : RsaPublicKey
  privateKey : RsaPrivateKey
deriving Repr, DecidableEq

structure RsaKeyGenResult where
  params : RsaParams
  keyPair : RsaKeyPair
  euclideanSteps : List EuclideanStep
deriving Repr, DecidableEq

/-- The `for (let i = 3; i < totient; i += 2)` search for the first exponent
coprime to the totient, made structural with a fuel argument; `i` grows by 2
toward the bound `tot`, so fuel `tot` is never exhausted. -/
def findOddExponentFuel (fuel tot i : Nat) : Option Nat :=
  match fuel with
  | 0 => none
  | fuel + 1 =>
    if i < tot then
      if gcd i tot = 1 then some i else findOddExponentFuel fuel tot (i + 2)
    else none

def findOddExponent (tot i : Nat) : Option Nat := findOddExponentFuel tot tot i

/-- `RsaCipher.generateKeyPair`.  A JS `undefined` (omitted) or `0` third
argument is falsy, so both trigger the exponent search; this is modelled by
`Option.getD eOpt 0`.  The private exponent returned by `modInverseWithSteps`
is provably nonnegative, so it is stored via `Int.toNat`. -/
def generateKeyPair (p q : Nat) (eOpt : Option Nat) :
    Except RsaError RsaKeyGenResult :=
  if ¬ isPrime p then .error .nonPrimeP
  else if ¬ isPrime q then .error .nonPrimeQ
  else if p = q then .error .duplicatePrimes
  else
    let n := p * q
    let totient := (p - 1) * (q - 1)
    let e0 := eOpt.getD 0
    let eRes : Except RsaError Nat :=
      if e0 = 0 then
        match findOddExponent totient 3 with
        | some e => .ok e
        | none => .error .noValidExponent
      else if gcd e0 totient ≠ 1 then .error .exponentNotCoprime
      else .ok e0
    match eRes with
    | .error err => .error err
    | .ok e =>
      let inv := modInverseWithSteps e totient
      let d := inv.1.toNat
      .ok ⟨⟨p, q, n, totient, e, d⟩, ⟨⟨e, n⟩, ⟨d, n⟩⟩, inv.2⟩

/-- Result of the four RSA operations (`RsaOperationResult`); the operand is
kept as `Int` because it is range-checked against `[0, n)` before use. -/
structure RsaOperationResult where
  message : Int
  result : Nat
  steps : List ModExpStep
deriving Repr, DecidableEq

/-- `RsaCipher.encrypt`. -/
def encrypt (message : Int) (publicKey : RsaPublicKey) :
    Except RsaError RsaOperationResult :=
  if message < 0 ∨ (publicKey.n : Int) ≤ message then .error .messageOutOfRange
  else
    let me := modExpWithSteps message.toNat publicKey.e publicKey.n
    .ok ⟨message, me.result, me.steps⟩

/-- `RsaCipher.decrypt`. -/
def decrypt (ciphertext : Int) (privateKey : RsaPrivateKey) :
    Except RsaError RsaOperationResult :=
  if ciphertext < 0 ∨ (privateKey.n : Int) ≤ ciphertext then .error .messageOutOfRange
  else
    let me := modExpWithSteps ciphertext.toNat privateKey.d privateKey.n
    .ok ⟨ciphertext, me.result, me.steps⟩

/-- `RsaCipher.sign`. -/
def sign (message : Int) (privateKey : RsaPrivateKey) :
    Except RsaError RsaOperationResult :=
  if message < 0 ∨ (privateKey.n : Int) ≤ message then .error .messageOutOfRange
  else
    let me := modExpWithSteps message.toNat privateKey.d privateKey.n
    .ok ⟨message, me.result, me.steps⟩

/-- `RsaCipher.verify`. -/
def verify (signature : Int) (publicKey : RsaPublicKey) :
    Except RsaError RsaOperationResult :=
  if signature < 0 ∨ (publicKey.n : Int) ≤ signature then .error .messageOutOfRange
  else
    let me := modExpWithSteps signature.toNat publicKey.e publicKey.n
    .ok ⟨signature, me.result, me.steps⟩

end RsaCipher

/-! ## PlayfairCipher (from `src/utils/PlayfairCipher.ts`) -/

namespace PlayfairCipher

/-- Errors the Playfair encryption path can raise at runtime:
`letterNotFound` models the explicit `throw new Error("Letter ... not found in matrix")`,
`undefinedLetter` models the `TypeError` raised by calling `.toLowerCase()` on the
`undefined` obtained by indexing past the end of a digraph string. -/
inductive PlayfairError where
  | letterNotFound
  | undefinedLetter
deriving Repr, DecidableEq

structure PlayfairParams where
  key : List Char
  plaintext : List Char
  separateChar : List Char
  insertCharAtLast : Bool
deriving Repr, DecidableEq

structure PlayfairResult where
  ciphertext : List Char
  matrix : List (List Char)
  processedPlaintext : List Char
  digraphs : List (List Char × List Char)
deriving Repr, DecidableEq

def isAsciiLowerAlpha (c : Char) : Bool := 'a' ≤ c && c ≤ 'z'

/-- Lowercase, strip non-letters (the `/[^a-z]/g` replace), map `j` to `i`. -/
def normalizeLetters (s : List Char) : List Char :=
  ((s.map Js.toLower).filter isAsciiLowerAlpha).map (fun c => if c = 'j' then 'i' else c)

/-- First-occurrence deduplication, as `[...new Set(chars)]`. -/
def dedupChars (l : List Char) : List Char :=
  l.foldl (fun acc c => if c ∈ acc then acc else acc ++ [c]) []

def alphabetNoJ : List Char := "abcdefghiklmnopqrstuvwxyz".toList

/-- `PlayfairCipher.generateMatrix`. -/
def generateMatrix (key : List Char) : List (List Char) :=
  let uniqueChars :=
    alphabetNoJ.foldl (fun acc c => if c ∈ acc then acc else acc ++ [c])
      (dedupChars (normalizeLetters key))
  (List.range 5).map (fun i => ((uniqueChars.drop (i * 5)).take 5))

/-- The nested row/column scan of `findPosition`. -/
def findPosAux (matrix : List (List Char)) (target : Char) : Option (Nat × Nat) :=
  (List.range 5).findSome? (fun row =>
    (List.range 5).findSome? (fun col =>
      if (matrix.getD row []).getD col ' ' = target then some (row, col) else none))

/-- `PlayfairCipher.findPosition`; the letter argument is `Option Char` because the
source can call it with `undefined` (see `encryptDigraph` on a 1-letter digraph). -/
def findPosition (matrix : List (List Char)) (letter : Option Char) :
    Except PlayfairError (Nat × Nat) :=
  match letter with
  | none => .error .undefinedLetter
  | some ch =>
    let low := Js.toLower ch
    let normalized := if low = 'j' then 'i' else low
    match findPosAux matrix normalized with
    | some rc => .ok rc
    | none => .error .letterNotFound

/-- The separator-insertion loop of `processPlaintext`: after each character that is
followed by an equal character, the whole separator string is appended. -/
def insertSeparators (sep : List Char) : List Char → List Char
  | [] => []
  | [c] => [c]
  | c1 :: c2 :: rest =>
    if c1 = c2 then c1 :: (sep ++ insertSeparators sep (c2 :: rest))
    else c1 :: insertSeparators sep (c2 :: rest)

/-- `PlayfairCipher.processPlaintext`. -/
def processPlaintext (plaintext sep : List Char) (insertCharAtLast : Bool) : List Char :=
  let result := insertSeparators sep (normalizeLetters plaintext)
  if result.length % 2 ≠ 0 && insertCharAtLast then result ++ sep else result

/-- `PlayfairCipher.getDigraphs`: consecutive pairs, with a final single-letter
residue when the length is odd. -/
def getDigraphs : List Char → List (List Char)
  | [] => []
  | [c] => [[c]]
  | c1 :: c2 :: rest => [c1, c2] :: getDigraphs rest

/-- `PlayfairCipher.encryptDigraph`. -/
def encryptDigraph (matrix : List (List Char)) (digraph : List Char) :
    Except PlayfairError (List Char) := do
  let rc1 ← findPosition matrix digraph[0]?
  let rc2 ← findPosition matrix digraph[1]?
  let (row1, col1) := rc1
  let (row2, col2) := rc2
  let (newRow1, newCol1, newRow2, newCol2) :=
    if row1 = row2 then (row1, (col1 + 1) % 5, row2, (col2 + 1) % 5)
    else if col1 = col2 then ((row1 + 1) % 5, col1, (row2 + 1) % 5, col2)
    else (row1, col2, row2, col1)
  return [(matrix.getD newRow1 []).getD newCol1 ' ',
          (matrix.getD newRow2 []).getD newCol2 ' ']

/-- `PlayfairCipher.encrypt`. -/
def encrypt (params : PlayfairParams) : Except PlayfairError PlayfairResult := do
  let matrix := generateMatrix params.key
  let processedPlaintext :=
    processPlaintext params.plaintext params.separateChar params.insertCharAtLast
  let plaintextDigraphs := getDigraphs processedPlaintext
  let encryptedParts ← plaintextDigraphs.mapM (encryptDigraph matrix)
  return ⟨encryptedParts.flatten, matrix, processedPlaintext,
          plaintextDigraphs.zip encryptedParts⟩

end PlayfairCipher

/-! ## RailFenceCipher (from `src/utils/RailFenceCipher.ts`)

Only the ciphertext-producing path is embedded; the per-round visualization
records (`columnMap`, `tableData`, `tableHeaders`, `keyOrder`) do not feed back
into the text and are not needed by any claim.

The source disambiguates repeated key characters by a `char+count` map key;
those map keys are in bijection with the key positions, so columns are indexed
here directly by the original key position. -/

namespace RailFenceCipher

/-- Model of the `/\s+/g` whitespace stripping. -/
def stripSpaces (text : List Char) : List Char := text.filter (fun c => !c.isWhitespace)

/-- Column `j` of the encryption table: the characters distributed round-robin
(`columnIndex = i % keyData.length`) land in column `j` exactly at the source
positions congruent to `j`. -/
def column (text : List Char) (numCols j : Nat) : List Char :=
  (text.enum.filter (fun p => p.1 % numCols = j)).map (·.2)

/-- The comparator of the `alphabeticOrder` sort: by displayed character, ties
broken by original index.  All `(char, index)` pairs are distinct, so any sort
with this strict total order produces the JS result. -/
def keyLt (a b : Char × Nat) : Bool :=
  a.1 < b.1 || (a.1 = b.1 && a.2 < b.2)

def sortedInsert (x : Char × Nat) : List (Char × Nat) → List (Char × Nat)
  | [] => [x]
  | y :: ys => if keyLt x y then x :: y :: ys else y :: sortedInsert x ys

def insertionSort : List (Char × Nat) → List (Char × Nat)
  | [] => []
  | x :: xs => sortedInsert x (insertionSort xs)

/-- Original key positions listed in alphabetical order of their characters
(ties by original position). -/
def alphaOrder (key : List Char) : List Nat :=
  (insertionSort (key.enum.map (fun p => (p.2, p.1)))).map (·.2)

/-- One round of `RailFenceCipher.encrypt`: distribute round-robin, then
concatenate the columns in alphabetical key order. -/
def encryptRound (key text : List Char) : List Char :=
  ((alphaOrder key).map (fun j => column text key.length j)).flatten

def iterate (f : List Char → List Char) : Nat → List Char → List Char
  | 0, text => text
  | t + 1, text => iterate f t (f text)

/-- `RailFenceCipher.encrypt` (ciphertext only). -/
def encrypt (plaintext key : List Char) (transpositionTimes : Nat) : List Char :=
  iterate (encryptRound key) transpositionTimes (stripSpaces plaintext)

/-- Split a text into consecutive slices of the given lengths. -/
def splitLens : List Char → List Nat → List (List Char)
  | _, [] => []
  | text, l :: ls => text.take l :: splitLens (text.drop l) ls

/-- One round of `RailFenceCipher.decrypt`: column lengths are
`⌊total/numCols⌋`, the first `total % numCols` columns *in alphabetical order*
getting one extra character; the ciphertext is sliced in alphabetical order and
read back row-major in original key order. -/
def decryptRound (key text : List Char) : List Char :=
  let numCols := key.length
  let totalChars := text.length
  let charsPerCol := totalChars / numCols
  let extraChars := totalChars % numCols
  let order := alphaOrder key
  let lens := (List.range order.length).map
    (fun idx => charsPerCol + if idx < extraChars then 1 else 0)
  let colsAlpha := splitLens text lens
  -- column of the original key position j
  let colFor := fun j => colsAlpha.getD (order.findIdx (· = j)) []
  let maxRows := ((colsAlpha.map List.length).foldl max 0)
  ((List.range maxRows).map (fun row =>
    (List.range numCols).filterMap (fun j => (colFor j)[row]?))).flatten

/-- `RailFenceCipher.decrypt`. -/
def decrypt (ciphertext key : List Char) (transpositionTimes : Nat) : List Char :=
  iterate (decryptRound key) transpositionTimes (stripSpaces ciphertext)

end RailFenceCipher

/-! ## CaesarCipher (from `src/utils/CaesarCipher.ts`)

Only the output-text paths (`encode`, `decode`, `encodeVietnamese`,
`decodeVietnamese`) are embedded; the `solve*` variants only additionally
collect per-character `StepResult` records, which no claim concerns. -/

namespace CaesarCipher

def ALPHABET : List Char := "ABCDEFGHIJKLMNOPQRSTUVWXYZ".toList

def ALPHABET_SIZE : Nat := 26

def VN_ALPHABET : List Char := "AĂÂBCDĐEÊGHIKLMNOÔƠPQRSTUVƯXY".toList

def VN_ALPHABET_SIZE : Nat := 29

/-- The diacritic-removal table of `CaesarCipher.removeDiacritics`, verbatim
from the source (tonal variant ↦ base letter). -/
def diacriticPairs : List (Char × Char) :=
  [('á','a'),('à','a'),('ả','a'),('ã','a'),('ạ','a'),
   ('Á','A'),('À','A'),('Ả','A'),('Ã','A'),('Ạ','A'),
   ('ắ','ă'),('ằ','ă'),('ẳ','ă'),('ẵ','ă'),('ặ','ă'),
   ('Ắ','Ă'),('Ằ','Ă'),('Ẳ','Ă'),('Ẵ','Ă'),('Ặ','Ă'),
   ('ấ','â'),('ầ','â'),('ẩ','â'),('ẫ','â'),('ậ','â'),
   ('Ấ','Â'),('Ầ','Â'),('Ẩ','Â'),('Ẫ','Â'),('Ậ','Â'),
   ('é','e'),('è','e'),('ẻ','e'),('ẽ','e'),('ẹ','e'),
   ('É','E'),('È','E'),('Ẻ','E'),('Ẽ','E'),('Ẹ','E'),
   ('ế','ê'),('ề','ê'),('ể','ê'),('ễ','ê'),('ệ','ê'),
   ('Ế','Ê'),('Ề','Ê'),('Ể','Ê'),('Ễ','Ê'),('Ệ','Ê'),
   ('í','i'),('ì','i'),('ỉ','i'),('ĩ','i'),('ị','i'),
   ('Í','I'),('Ì','I'),('Ỉ','I'),('Ĩ','I'),('Ị','I'),
   ('ó','o'),('ò','o'),('ỏ','o'),('õ','o'),('ọ','o'),
   ('Ó','O'),('Ò','O'),('Ỏ','O'),('Õ','O'),('Ọ','O'),
   ('ố','ô'),('ồ','ô'),('ổ','ô'),('ỗ','ô'),('ộ','ô'),
   ('Ố','Ô'),('Ồ','Ô'),('Ổ','Ô'),('Ỗ','Ô'),('Ộ','Ô'),
   ('ớ','ơ'),('ờ','ơ'),('ở','ơ'),('ỡ','ơ'),('ợ','ơ'),
   ('Ớ','Ơ'),('Ờ','Ơ'),('Ở','Ơ'),('Ỡ','Ơ'),('Ợ','Ơ'),
   ('ú','u'),('ù','u'),('ủ','u'),('ũ','u'),('ụ','u'),
   ('Ú','U'),('Ù','U'),('Ủ','U'),('Ũ','U'),('Ụ','U'),
   ('ứ','ư'),('ừ','ư'),('ử','ư'),('ữ','ư'),('ự','ư'),
   ('Ứ','Ư'),('Ừ','Ư'),('Ử','Ư'),('Ữ','Ư'),('Ự','Ư'),
   ('ý','y'),('ỳ','y'),('ỷ','y'),('ỹ','y'),('ỵ','y'),
   ('Ý','Y'),('Ỳ','Y'),('Ỷ','Y'),('Ỹ','Y'),('Ỵ','Y')]

/-- `removeDiacritics` on a single character: `map[ch] || ch`. -/
def removeDiacriticsChar (c : Char) : Char := (Js.assocLookup c diacriticPairs).getD c

/-- `CaesarCipher.removeDiacritics`. -/
def removeDiacritics (s : List Char) : List Char := s.map removeDiacriticsChar

/-- The `/[a-zA-Z]/` test guarding `encodeChar` / `decodeChar`. -/
def isLatinLetter (c : Char) : Bool :=
  ('a' ≤ c && c ≤ 'z') || ('A' ≤ c && c ≤ 'Z')

/-- `getCharValue`: `ALPHABET.indexOf(char.toUpperCase())`. -/
def getCharValue (c : Char) : Int := Js.indexOf ALPHABET (Js.toUpper c)

/-- `getValueChar`: index into `ALPHABET` after `((value % 26) + 26) % 26`. -/
def getValueChar (v : Int) : Char :=
  ALPHABET.getD (Js.jsRem (Js.jsRem v 26 + 26) 26).toNat ' '

/-- `getVnCharValue`: `VN_ALPHABET.indexOf(removeDiacritics(char).toUpperCase())`. -/
def getVnCharValue (c : Char) : Int :=
  Js.indexOf VN_ALPHABET (Js.toUpper (removeDiacriticsChar c))

/-- `getVnValueChar`. -/
def getVnValueChar (v : Int) : Char :=
  VN_ALPHABET.getD (Js.jsRem (Js.jsRem v 29 + 29) 29).toNat ' '

/-- `encodeChar` (output character only). -/
def encodeChar (c : Char) (shift : Nat) : Char :=
  if !isLatinLetter c then c
  else
    let value := getCharValue c
    let newValue := Js.jsRem (value + shift) 26
    let newChar := getValueChar newValue
    if c = Js.toUpper c then Js.toUpper newChar else Js.toLower newChar

/-- `decodeChar` (output character only). -/
def decodeChar (c : Char) (shift : Nat) : Char :=
  if !isLatinLetter c then c
  else
    let value := getCharValue c
    let newValue := Js.jsRem (Js.jsRem (value - shift) 26 + 26) 26
    let newChar := getValueChar newValue
    if c = Js.toUpper c then Js.toUpper newChar else Js.toLower newChar

/-- `CaesarCipher.encode`. -/
def encode (text : List Char) (shift : Nat) : List Char :=
  text.map (fun c => encodeChar c shift)

/-- `CaesarCipher.decode`. -/
def decode (text : List Char) (shift : Nat) : List Char :=
  text.map (fun c => decodeChar c shift)

/-- `encodeVnChar` (output character only). -/
def encodeVnChar (c : Char) (shift : Nat) : Char :=
  let baseChar := removeDiacriticsChar c
  if Js.indexOf VN_ALPHABET (Js.toUpper baseChar) = -1 then c
  else
    let value := getVnCharValue c
    let newValue := Js.jsRem (value + shift) 29
    let newChar := getVnValueChar newValue
    if c = Js.toUpper c then Js.toUpper newChar else Js.toLower newChar

/-- `decodeVnChar` (output character only). -/
def decodeVnChar (c : Char) (shift : Nat) : Char :=
  let baseChar := removeDiacriticsChar c
  if Js.indexOf VN_ALPHABET (Js.toUpper baseChar) = -1 then c
  else
    let value := getVnCharValue c
    let newValue := Js.jsRem (Js.jsRem (value - shift) 29 + 29) 29
    let newChar := getVnValueChar newValue
    if c = Js.toUpper c then Js.toUpper newChar else Js.toLower newChar

/-- `CaesarCipher.encodeVietnamese`. -/
def encodeVietnamese (text : List Char) (shift : Nat) : List Char :=
  text.map (fun c => encodeVnChar c shift)

/-- `CaesarCipher.decodeVietnamese`. -/
def decodeVietnamese (text : List Char) (shift : Nat) : List Char :=
  text.map (fun c => decodeVnChar c shift)

/-- The `k`-th letter of the Latin alphabet (uppercase), as a helper for
stating per-character lemmas. -/
def latinUpper (k : Nat) : Char := ALPHABET.getD k ' '

/-- The `k`-th letter of the Latin alphabet, lowercased. -/
def latinLower (k : Nat) : Char := Js.toLower (latinUpper k)

/-- The `j`-th letter of the 29-symbol Vietnamese alphabet (uppercase). -/
def vnUpperChar (j : Nat) : Char := VN_ALPHABET.getD j ' '

/-- The `j`-th letter of the 29-symbol Vietnamese alphabet, lowercased. -/
def vnLowerChar (j : Nat) : Char := Js.toLower (vnUpperChar j)

end CaesarCipher

/-! ## Theorems -/

/-! ### Helper lemmas about `modExpWithSteps` and binary digits -/

theorem modExpGo_steps_length (modulus : Nat) :
    ∀ (bits : List Nat) (result p : Nat) (acc : List RsaCipher.ModExpStep),
      (RsaCipher.modExpGo modulus bits result p acc).steps.length
        = acc.length + bits.length := by
  intro bits
  induction bits with
  | nil => intro result p acc; simp [RsaCipher.modExpGo]
  | cons bit rest ih =>
    intro result p acc
    simp only [RsaCipher.modExpGo]
    rw [ih]
    simp
    omega

theorem natToBinaryFuel_length_pos :
    ∀ (fuel n : Nat), 1 ≤ (RsaCipher.natToBinaryFuel fuel n).length := by
  intro fuel
  induction fuel with
  | zero => intro n; simp [RsaCipher.natToBinaryFuel]
  | succ fuel ih =>
    intro n
    simp only [RsaCipher.natToBinaryFuel]
    split
    · simp
    · simp

/-- For `1 ≤ n < 2 ^ fuel` the digit list of `natToBinaryFuel` has exactly the
bit-length of `n`: `2 ^ (len - 1) ≤ n < 2 ^ len`. -/
theorem natToBinaryFuel_length_bits :
    ∀ (fuel n : Nat), 1 ≤ n → n < 2 ^ fuel →
      2 ^ ((RsaCipher.natToBinaryFuel fuel n).length - 1) ≤ n
      ∧ n < 2 ^ (RsaCipher.natToBinaryFuel fuel n).length := by
  intro fuel
  induction fuel with
  | zero => intro n h1 h2; omega
  | succ fuel ih =>
    intro n h1 h2
    simp only [RsaCipher.natToBinaryFuel]
    split
    · have hn : n = 1 := by omega
      subst hn
      simp
    · rename_i hge
      have hhalf1 : 1 ≤ n / 2 := by omega
      have hhalf2 : n / 2 < 2 ^ fuel := by
        have := Nat.div_add_mod n 2
        have h2' : n < 2 * 2 ^ fuel := by
          calc n < 2 ^ (fuel + 1) := h2
          _ = 2 * 2 ^ fuel := by rw [Nat.pow_succ]; ring
        omega
      obtain ⟨ihl, ihr⟩ := ih (n / 2) hhalf1 hhalf2
      have hlen := natToBinaryFuel_length_pos fuel (n / 2)
      set L := (RsaCipher.natToBinaryFuel fuel (n / 2)).length with hL
      constructor
      · have : 2 ^ (L + 1 - 1) = 2 * 2 ^ (L - 1) := by
          have : L + 1 - 1 = (L - 1) + 1 := by omega
          rw [this, Nat.pow_succ]; ring
        simp only [List.length_append, List.length_cons, List.length_nil]
        have hdm := Nat.div_add_mod n 2
        calc 2 ^ (L + 1 - 1) = 2 * 2 ^ (L - 1) := this
        _ ≤ 2 * (n / 2) := by omega
        _ ≤ n := by omega
      · simp only [List.length_append, List.length_cons, List.length_nil]
        have hdm := Nat.div_add_mod n 2
        calc n = 2 * (n / 2) + n % 2 := by omega
        _ < 2 * 2 ^ L := by omega
        _ = 2 ^ (L + 1) := by rw [Nat.pow_succ]; ring

/-! ### C5 -/

/-- C5: `generateKeyPair(11, 3, 3)` returns params with `n = 33`, `totient = 20`,
`d = 7`; `encrypt(9, {e: 3, n: 33})` returns result `3`; and
`decrypt(3, {d: 7, n: 33})` returns result `9`. -/
theorem claim_C5_concrete_keygen_roundtrip :
    (RsaCipher.generateKeyPair 11 3 (some 3)).toOption.map
        (fun kg => (kg.params.n, kg.params.totient, kg.params.d)) = some (33, 20, 7)
    ∧ (RsaCipher.encrypt 9 ⟨3, 33⟩).toOption.map (·.result) = some 3
    ∧ (RsaCipher.decrypt 3 ⟨7, 33⟩).toOption.map (·.result) = some 9 := by
  decide

/-! ### C1

`modExpWithSteps` walks the binary digits of the exponent most-significant-bit
first but accumulates `p ← p² mod n` starting from `p = base`, which is the
update scheme of the least-significant-bit-first algorithm.  It therefore
computes `base ^ rev(exponent) mod n`, where `rev` reverses the exponent's
binary digits.  Every worked example in the repository (e = 3, 7, 17) has a
palindromic binary representation, which hides the defect.  For
`p = 3, q = 11, e = 13` (`13 = 1101₂`, `d = 17`), `generateKeyPair` accepts the
exponent but `decrypt(encrypt(2)) = 29 ≠ 2` and `verify(sign(2)) = 29 ≠ 2`. -/

/-- C1: evaluation at the failing input: `generateKeyPair 3 11 13` succeeds and
yields keys `{e:13, n:33}` / `{d:17, n:33}`, yet `decrypt(encrypt(2)) = 29` and
`verify(sign(2)) = 29` instead of `2`, refuting the claimed round-trips. -/
theorem claim_C1_failing_input_eval :
    (RsaCipher.generateKeyPair 3 11 (some 13)).toOption.map
        (fun kg => (kg.keyPair.publicKey.e, kg.keyPair.publicKey.n,
                    kg.keyPair.privateKey.d, kg.keyPair.privateKey.n))
      = some (13, 33, 17, 33)
    ∧ (RsaCipher.encrypt 2 ⟨13, 33⟩).toOption.map (·.result) = some 2
    ∧ (RsaCipher.decrypt 2 ⟨17, 33⟩).toOption.map (·.result) = some 29
    ∧ (RsaCipher.sign 2 ⟨17, 33⟩).toOption.map (·.result) = some 29
    ∧ (RsaCipher.verify 29 ⟨13, 33⟩).toOption.map (·.result) = some 29 := by
  decide

/-! ### C2

`RailFenceCipher.encrypt` distributes the text round-robin, so the columns
holding one extra character are the first `length % numCols` columns *in
original key order*; `decrypt` hands the extra characters to the first
`length % numCols` columns *in alphabetical order*.  When the key is not
already alphabetically sorted and the length is not divisible by the number of
columns, the slice lengths are wrong and the round-trip fails. -/

/-- C2: evaluation at the failing input: with key `"ba"` and one round,
`encrypt("abc") = "bac"` but `decrypt("bac") = "cba" ≠ "abc"`. -/
theorem claim_C2_failing_input_eval :
    RailFenceCipher.encrypt "abc".toList "ba".toList 1 = "bac".toList
    ∧ RailFenceCipher.decrypt
        (RailFenceCipher.encrypt "abc".toList "ba".toList 1) "ba".toList 1
      = "cba".toList := by
  decide

/-! ### C4 -/

/-- C4 counterexample: for `modulus = 1` the trace is empty, so its length is
not the binary digit count of the exponent (`17` has five binary digits). -/
theorem claim_C4_counterexample :
    (RsaCipher.modExpWithSteps 9 17 1).steps.length
      ≠ (RsaCipher.natToBinary 17).length := by
  decide

/-- C4 (amended): for every modulus other than 1 the trace length equals the
number of binary digits of the exponent (`natToBinary`, the digit string of
JS `toString(2)`); that digit count is the true bit-length whenever the
exponent is at least 1 (`2^(len-1) ≤ e < 2^len`); for modulus 1 the trace is
empty; and `modExpWithSteps(9, 17, 77)` yields exactly 5 steps and result 4. -/
theorem claim_C4_trace_length :
    (∀ base exponent modulus : Nat, modulus ≠ 1 →
      (RsaCipher.modExpWithSteps base exponent modulus).steps.length
        = (RsaCipher.natToBinary exponent).length)
    ∧ (∀ exponent : Nat, 1 ≤ exponent →
        2 ^ ((RsaCipher.natToBinary exponent).length - 1) ≤ exponent
        ∧ exponent < 2 ^ (RsaCipher.natToBinary exponent).length)
    ∧ (∀ base exponent : Nat, (RsaCipher.modExpWithSteps base exponent 1).steps = [])
    ∧ (RsaCipher.modExpWithSteps 9 17 77).result = 4
    ∧ (RsaCipher.modExpWithSteps 9 17 77).steps.length = 5 := by
  refine ⟨?_, ?_, ?_, by decide, by decide⟩
  · intro base exponent modulus hm
    simp only [RsaCipher.modExpWithSteps, if_neg hm]
    rw [modExpGo_steps_length]
    simp
  · intro exponent h1
    exact natToBinaryFuel_length_bits exponent exponent h1 (Nat.lt_two_pow exponent)
  · intro base exponent
    simp [RsaCipher.modExpWithSteps]

/-- C4 witness: the amended statement instantiated at `modExpWithSteps 2 6 100`
(three steps for the three binary digits of 6) and at exponent 6 and modulus 1. -/
theorem claim_C4_trace_length_witness :
    (RsaCipher.modExpWithSteps 2 6 100).steps.length
      = (RsaCipher.natToBinary 6).length
    ∧ (2 ^ ((RsaCipher.natToBinary 6).length - 1) ≤ 6
        ∧ 6 < 2 ^ (RsaCipher.natToBinary 6).length)
    ∧ (RsaCipher.modExpWithSteps 5 9 1).steps = [] :=
  ⟨claim_C4_trace_length.1 2 6 100 (by decide),
   claim_C4_trace_length.2.1 6 (by decide),
   claim_C4_trace_length.2.2.1 5 9⟩

/-! ### C9

`PlayfairCipher.encrypt` performs no input validation at all: the checks for a
non-empty key, non-empty plaintext and single-character separator live in the
presentation layer (`PlayfairPage.validateInputs`), and the engine happily
returns results for all three supposedly rejected inputs. -/

set_option maxRecDepth 40000 in
/-- C9 counterexample: `encrypt` succeeds (returns a result, raising no
failure) on an empty key, on an empty plaintext, and on a two-character
separator, refuting "fails ... whenever the key is empty, the plaintext is
empty, or the separator is not exactly one character". -/
theorem claim_C9_counterexample :
    (PlayfairCipher.encrypt ⟨[], "ab".toList, "x".toList, true⟩).isOk = true
    ∧ (PlayfairCipher.encrypt ⟨"k".toList, [], "x".toList, true⟩).isOk = true
    ∧ (PlayfairCipher.encrypt ⟨"k".toList, "ab".toList, "xy".toList, true⟩).isOk = true := by
  decide

set_option maxRecDepth 40000 in
/-- C9 (amended): the Playfair engine itself raises no `InvalidPlayfairInput`
failure; the empty-key / empty-plaintext / separator-length checks are done by
the caller before invoking it.  `encrypt` with an empty plaintext succeeds with
an empty ciphertext for every key, separator and padding flag, and calls with
an empty key or a separator that is not exactly one character can succeed as
well. -/
theorem claim_C9_no_engine_validation :
    (∀ (key sep : List Char) (pad : Bool),
      PlayfairCipher.encrypt ⟨key, [], sep, pad⟩
        = .ok ⟨[], PlayfairCipher.generateMatrix key, [], []⟩)
    ∧ (PlayfairCipher.encrypt ⟨[], "ab".toList, "xy".toList, true⟩).isOk = true := by
  constructor
  · intro key sep pad
    rfl
  · decide

/-! ### C10 -/

theorem getDigraphs_odd_getLast :
    ∀ l : List Char, l.length % 2 = 1 →
      ∃ c, (PlayfairCipher.getDigraphs l).getLast? = some [c] := by
  intro l
  induction l using PlayfairCipher.getDigraphs.induct with
  | case1 => intro h; simp at h
  | case2 c => intro _; exact ⟨c, rfl⟩
  | case3 c1 c2 rest ih =>
    intro h
    have hrest : rest.length % 2 = 1 := by
      simp only [List.length_cons] at h; omega
    obtain ⟨c, hc⟩ := ih hrest
    refine ⟨c, ?_⟩
    have hne : PlayfairCipher.getDigraphs rest ≠ [] := by
      intro hnil; rw [hnil] at hc; simp at hc
    simp only [PlayfairCipher.getDigraphs]
    obtain ⟨d, ds, hds⟩ := List.exists_cons_of_ne_nil hne
    rw [hds, List.getLast?_cons_cons, ← hds, hc]

theorem encryptDigraph_singleton_error (matrix : List (List Char)) (c : Char) :
    ∃ e, PlayfairCipher.encryptDigraph matrix [c] = .error e := by
  cases hfp : PlayfairCipher.findPosition matrix ([c][0]?) with
  | error e =>
    exact ⟨e, by simp only [PlayfairCipher.encryptDigraph, hfp]; rfl⟩
  | ok rc =>
    refine ⟨.undefinedLetter, ?_⟩
    simp only [PlayfairCipher.encryptDigraph, hfp]
    rfl

theorem mapM_encryptDigraph_odd_error :
    ∀ (l : List Char) (matrix : List (List Char)), l.length % 2 = 1 →
      ∃ e, (PlayfairCipher.getDigraphs l).mapM (PlayfairCipher.encryptDigraph matrix)
        = Except.error e := by
  intro l
  induction l using PlayfairCipher.getDigraphs.induct with
  | case1 => intro matrix h; simp at h
  | case2 c =>
    intro matrix _
    obtain ⟨e, he⟩ := encryptDigraph_singleton_error matrix c
    refine ⟨e, ?_⟩
    simp only [PlayfairCipher.getDigraphs]
    rw [List.mapM_cons, he]
    rfl
  | case3 c1 c2 rest ih =>
    intro matrix h
    have hrest : rest.length % 2 = 1 := by
      simp only [List.length_cons] at h; omega
    simp only [PlayfairCipher.getDigraphs]
    rw [List.mapM_cons]
    cases hd : PlayfairCipher.encryptDigraph matrix [c1, c2] with
    | error e => exact ⟨e, rfl⟩
    | ok y =>
      obtain ⟨e, he⟩ := ih matrix hrest
      refine ⟨e, ?_⟩
      simp only [hd, he]
      rfl

/-- C10: whenever the processed plaintext has odd length, `getDigraphs` ends in
a single-letter digraph and `encrypt` does not return a result: `encryptDigraph`
reads the missing second letter (`undefined`) and passes it to `findPosition`,
which raises a runtime error. -/
theorem claim_C10_odd_residual_throws :
    ∀ params : PlayfairCipher.PlayfairParams,
      (PlayfairCipher.processPlaintext params.plaintext params.separateChar
          params.insertCharAtLast).length % 2 = 1 →
      ((PlayfairCipher.getDigraphs
          (PlayfairCipher.processPlaintext params.plaintext params.separateChar
            params.insertCharAtLast)).getLast?.map List.length = some 1)
      ∧ (PlayfairCipher.encrypt params).isOk = false := by
  intro params h
  constructor
  · obtain ⟨c, hc⟩ := getDigraphs_odd_getLast _ h
    rw [hc]
    rfl
  · obtain ⟨e, he⟩ := mapM_encryptDigraph_odd_error _
      (PlayfairCipher.generateMatrix params.key) h
    simp only [PlayfairCipher.encrypt]
    rw [he]
    rfl

/-- C10 witness: plaintext `"abc"` with padding disabled has an odd processed
plaintext `"abc"`; the digraphs end in the singleton `"c"` and encryption fails. -/
theorem claim_C10_odd_residual_throws_witness :
    ((PlayfairCipher.getDigraphs
        (PlayfairCipher.processPlaintext "abc".toList "x".toList false)).getLast?.map
          List.length = some 1)
    ∧ (PlayfairCipher.encrypt ⟨"key".toList, "abc".toList, "x".toList, false⟩).isOk
        = false :=
  claim_C10_odd_residual_throws ⟨"key".toList, "abc".toList, "x".toList, false⟩
    (by decide)

/-! ### C8 -/

/-- C8: each of `encrypt`, `decrypt`, `sign`, `verify` fails with
`MessageOutOfRange` exactly when its numeric operand is `< 0` or `≥ n` for the
key's modulus `n`, and returns an `OperationResult` for every operand in
`[0, n)`. -/
theorem claim_C8_range_validation :
    ∀ (x : Int) (pk : RsaCipher.RsaPublicKey) (sk : RsaCipher.RsaPrivateKey),
      ((RsaCipher.encrypt x pk = .error .messageOutOfRange)
          ↔ (x < 0 ∨ (pk.n : Int) ≤ x))
      ∧ ((RsaCipher.decrypt x sk = .error .messageOutOfRange)
          ↔ (x < 0 ∨ (sk.n : Int) ≤ x))
      ∧ ((RsaCipher.sign x sk = .error .messageOutOfRange)
          ↔ (x < 0 ∨ (sk.n : Int) ≤ x))
      ∧ ((RsaCipher.verify x pk = .error .messageOutOfRange)
          ↔ (x < 0 ∨ (pk.n : Int) ≤ x))
      ∧ (0 ≤ x → x < (pk.n : Int) →
          (RsaCipher.encrypt x pk).isOk = true ∧ (RsaCipher.verify x pk).isOk = true)
      ∧ (0 ≤ x → x < (sk.n : Int) →
          (RsaCipher.decrypt x sk).isOk = true ∧ (RsaCipher.sign x sk).isOk = true) := by
  intro x pk sk
  refine ⟨?_, ?_, ?_, ?_, ?_, ?_⟩
  · by_cases hc : x < 0 ∨ (pk.n : Int) ≤ x <;>
      simp [RsaCipher.encrypt, hc]
  · by_cases hc : x < 0 ∨ (sk.n : Int) ≤ x <;>
      simp [RsaCipher.decrypt, hc]
  · by_cases hc : x < 0 ∨ (sk.n : Int) ≤ x <;>
      simp [RsaCipher.sign, hc]
  · by_cases hc : x < 0 ∨ (pk.n : Int) ≤ x <;>
      simp [RsaCipher.verify, hc]
  · intro h0 hn
    have hc : ¬ (x < 0 ∨ (pk.n : Int) ≤ x) := by omega
    constructor <;>
      simp [RsaCipher.encrypt, RsaCipher.verify, hc, Except.isOk, Except.toBool]
  · intro h0 hn
    have hc : ¬ (x < 0 ∨ (sk.n : Int) ≤ x) := by omega
    constructor <;>
      simp [RsaCipher.decrypt, RsaCipher.sign, hc, Except.isOk, Except.toBool]

/-- C8 witness: with `n = 33`, operand 40 is rejected with `MessageOutOfRange`
and operand 9 is accepted. -/
theorem claim_C8_range_validation_witness :
    RsaCipher.encrypt 40 ⟨3, 33⟩ = .error .messageOutOfRange
    ∧ (RsaCipher.encrypt 9 ⟨3, 33⟩).isOk = true :=
  ⟨(claim_C8_range_validation 40 ⟨3, 33⟩ ⟨7, 33⟩).1.mpr (by decide),
   ((claim_C8_range_validation 9 ⟨3, 33⟩ ⟨7, 33⟩).2.2.2.2.1 (by decide) (by decide)).1⟩

/-! ### C3 helper lemmas -/

theorem char_eq_of_toNat_eq {c d : Char} (h : c.toNat = d.toNat) : c = d :=
  Char.ext (UInt32.ext h)

theorem jsRem_cast (m n : Nat) : Js.jsRem (m : Int) (n : Int) = ((m % n : Nat) : Int) := by
  simp only [Js.jsRem]
  exact (Int.ofNat_tmod m n).symm

theorem jsRem_negSucc (m n : Nat) :
    Js.jsRem (Int.negSucc m) (n : Int) = -(((m + 1) % n : Nat) : Int) := by
  simp only [Js.jsRem]
  rfl

theorem jsRem_cast26 (m : Nat) : Js.jsRem (m : Int) 26 = ((m % 26 : Nat) : Int) :=
  jsRem_cast m 26

theorem jsRem_cast29 (m : Nat) : Js.jsRem (m : Int) 29 = ((m % 29 : Nat) : Int) :=
  jsRem_cast m 29

theorem jsRem_negSucc26 (m : Nat) :
    Js.jsRem (Int.negSucc m) 26 = -(((m + 1) % 26 : Nat) : Int) :=
  jsRem_negSucc m 26

theorem jsRem_negSucc29 (m : Nat) :
    Js.jsRem (Int.negSucc m) 29 = -(((m + 1) % 29 : Nat) : Int) :=
  jsRem_negSucc m 29

/-- The `((x % 26) + 26) % 26` normalization of the source, with JS `%`,
coincides with mathematical mod 26 (`Int.emod`). -/
theorem norm_emod26 (x : Int) : Js.jsRem (Js.jsRem x 26 + 26) 26 = x % 26 := by
  cases x with
  | ofNat m =>
    have hm : (Int.ofNat m) = ((m : Nat) : Int) := rfl
    rw [hm, jsRem_cast26]
    have h3 : ((m % 26 : Nat) : Int) + 26 = ((m % 26 + 26 : Nat) : Int) := by
      push_cast; ring
    rw [h3, jsRem_cast26]
    omega
  | negSucc m =>
    rw [jsRem_negSucc26]
    have h3 : -(((m + 1) % 26 : Nat) : Int) + 26 = ((26 - (m + 1) % 26 : Nat) : Int) := by
      push_cast [Nat.cast_sub (by omega : (m + 1) % 26 ≤ 26)]
      ring
    rw [h3, jsRem_cast26, Int.negSucc_eq]
    omega

theorem norm_emod29 (x : Int) : Js.jsRem (Js.jsRem x 29 + 29) 29 = x % 29 := by
  cases x with
  | ofNat m =>
    have hm : (Int.ofNat m) = ((m : Nat) : Int) := rfl
    rw [hm, jsRem_cast29]
    have h3 : ((m % 29 : Nat) : Int) + 29 = ((m % 29 + 29 : Nat) : Int) := by
      push_cast; ring
    rw [h3, jsRem_cast29]
    omega
  | negSucc m =>
    rw [jsRem_negSucc29]
    have h3 : -(((m + 1) % 29 : Nat) : Int) + 29 = ((29 - (m + 1) % 29 : Nat) : Int) := by
      push_cast [Nat.cast_sub (by omega : (m + 1) % 29 ≤ 29)]
      ring
    rw [h3, jsRem_cast29, Int.negSucc_eq]
    omega

/-! Per-letter facts about the Latin alphabet, by finite evaluation. -/

theorem lat_toUpper_upper : ∀ k < 26,
    Js.toUpper (CaesarCipher.latinUpper k) = CaesarCipher.latinUpper k := by decide

theorem lat_toUpper_lower : ∀ k < 26,
    Js.toUpper (CaesarCipher.latinLower k) = CaesarCipher.latinUpper k := by decide

theorem lat_lower_ne : ∀ k < 26,
    CaesarCipher.latinLower k ≠ CaesarCipher.latinUpper k := by decide

theorem lat_value_upper : ∀ k < 26,
    CaesarCipher.getCharValue (CaesarCipher.latinUpper k) = (k : Int) := by decide

theorem lat_value_lower : ∀ k < 26,
    CaesarCipher.getCharValue (CaesarCipher.latinLower k) = (k : Int) := by decide

theorem lat_letter_upper : ∀ k < 26,
    CaesarCipher.isLatinLetter (CaesarCipher.latinUpper k) = true := by decide

theorem lat_letter_lower : ∀ k < 26,
    CaesarCipher.isLatinLetter (CaesarCipher.latinLower k) = true := by decide

theorem lat_toNat_upper : ∀ k < 26, (CaesarCipher.latinUpper k).toNat = 65 + k := by decide

theorem lat_toNat_lower : ∀ k < 26, (CaesarCipher.latinLower k).toNat = 97 + k := by decide

/-! Per-letter facts about the Vietnamese alphabet, by finite evaluation. -/

theorem vn_toUpper_upper : ∀ j < 29,
    Js.toUpper (CaesarCipher.vnUpperChar j) = CaesarCipher.vnUpperChar j := by decide

theorem vn_toUpper_lower : ∀ j < 29,
    Js.toUpper (CaesarCipher.vnLowerChar j) = CaesarCipher.vnUpperChar j := by decide

theorem vn_lower_ne : ∀ j < 29,
    CaesarCipher.vnLowerChar j ≠ CaesarCipher.vnUpperChar j := by decide

theorem vn_value_upper : ∀ j < 29,
    CaesarCipher.getVnCharValue (CaesarCipher.vnUpperChar j) = (j : Int) := by decide

theorem vn_value_lower : ∀ j < 29,
    CaesarCipher.getVnCharValue (CaesarCipher.vnLowerChar j) = (j : Int) := by decide

theorem vn_fix_upper : ∀ j < 29,
    CaesarCipher.removeDiacriticsChar (CaesarCipher.vnUpperChar j)
      = CaesarCipher.vnUpperChar j := by decide

theorem vn_fix_lower : ∀ j < 29,
    CaesarCipher.removeDiacriticsChar (CaesarCipher.vnLowerChar j)
      = CaesarCipher.vnLowerChar j := by decide

/-! Bridging lemmas: from the source's own guards to alphabet membership. -/

theorem indexOfAux_some_mem (c : Char) :
    ∀ (l : List Char) (i j : Nat), Js.indexOfAux c l i = some j → c ∈ l := by
  intro l
  induction l with
  | nil => intro i j h; simp [Js.indexOfAux] at h
  | cons a rest ih =>
    intro i j h
    simp only [Js.indexOfAux] at h
    by_cases ha : a = c
    · exact ha ▸ List.mem_cons_self a rest
    · rw [if_neg ha] at h
      exact List.mem_cons_of_mem a (ih (i + 1) j h)

theorem indexOf_ne_neg_one_mem (l : List Char) (c : Char)
    (h : Js.indexOf l c ≠ -1) : c ∈ l := by
  cases haux : Js.indexOfAux c l 0 with
  | none => exact absurd (by simp [Js.indexOf, haux]) h
  | some j => exact indexOfAux_some_mem c l 0 j haux

theorem mem_exists_getD (c : Char) :
    ∀ l : List Char, c ∈ l → ∃ j, j < l.length ∧ l.getD j ' ' = c := by
  intro l
  induction l with
  | nil => intro h; simp at h
  | cons a rest ih =>
    intro h
    rcases List.mem_cons.mp h with rfl | hmem
    · exact ⟨0, by simp, rfl⟩
    · obtain ⟨j, hj, hg⟩ := ih hmem
      exact ⟨j + 1, by simp; omega, hg⟩

theorem assocLookup_some_mem (c u : Char) :
    ∀ l : List (Char × Char), Js.assocLookup c l = some u → c ∈ l.map Prod.fst := by
  intro l
  induction l with
  | nil => intro h; simp [Js.assocLookup] at h
  | cons p rest ih =>
    intro h
    simp only [Js.assocLookup] at h
    by_cases hp : p.1 = c
    · simp [hp]
    · rw [if_neg hp] at h
      simp only [List.map_cons, List.mem_cons]
      exact Or.inr (ih h)

set_option maxRecDepth 8000 in
theorem vn_keys_bridge : ∀ c ∈ Js.upperPairs.map Prod.fst,
    CaesarCipher.removeDiacriticsChar c = c →
    CaesarCipher.getVnCharValue c ≠ -1 →
    ∃ j, j < 29 ∧ (c = CaesarCipher.vnUpperChar j ∨ c = CaesarCipher.vnLowerChar j) := by
  decide

/-- A diacritic-free character recognized by the Vietnamese lookup is one of
the 29 alphabet letters or one of their lowercase forms. -/
theorem vn_bridge (c : Char) (hfix : CaesarCipher.removeDiacriticsChar c = c)
    (h : CaesarCipher.getVnCharValue c ≠ -1) :
    ∃ j, j < 29 ∧ (c = CaesarCipher.vnUpperChar j ∨ c = CaesarCipher.vnLowerChar j) := by
  cases hl : Js.assocLookup c Js.upperPairs with
  | some u => exact vn_keys_bridge c (assocLookup_some_mem c u _ hl) hfix h
  | none =>
    have hup : Js.toUpper c = c := by simp [Js.toUpper, hl]
    have h2 : Js.indexOf CaesarCipher.VN_ALPHABET c ≠ -1 := by
      simpa [CaesarCipher.getVnCharValue, hfix, hup] using h
    have h3 : c ∈ CaesarCipher.VN_ALPHABET := indexOf_ne_neg_one_mem _ _ h2
    obtain ⟨j, hj, hg⟩ := mem_exists_getD c _ h3
    have hlen : CaesarCipher.VN_ALPHABET.length = 29 := by decide
    exact ⟨j, by omega, Or.inl hg.symm⟩

/-- A character matched by the `/[a-zA-Z]/` test is one of the 26 letters or
one of their lowercase forms. -/
theorem latin_bridge (c : Char) (h : CaesarCipher.isLatinLetter c = true) :
    ∃ k, k < 26 ∧ (c = CaesarCipher.latinUpper k ∨ c = CaesarCipher.latinLower k) := by
  simp only [CaesarCipher.isLatinLetter, Bool.or_eq_true, Bool.and_eq_true,
    decide_eq_true_eq] at h
  rcases h with ⟨h1, h2⟩ | ⟨h1, h2⟩
  · have hn1 : 97 ≤ c.toNat := h1
    have hn2 : c.toNat ≤ 122 := h2
    refine ⟨c.toNat - 97, by omega, Or.inr ?_⟩
    apply char_eq_of_toNat_eq
    rw [lat_toNat_lower (c.toNat - 97) (by omega)]
    omega
  · have hn1 : 65 ≤ c.toNat := h1
    have hn2 : c.toNat ≤ 90 := h2
    refine ⟨c.toNat - 65, by omega, Or.inl ?_⟩
    apply char_eq_of_toNat_eq
    rw [lat_toNat_upper (c.toNat - 65) (by omega)]
    omega

/-! Reduced forms of the four per-character maps. -/

theorem encodeChar_of_letter (c : Char) (s : Nat)
    (h : CaesarCipher.isLatinLetter c = true) :
    CaesarCipher.encodeChar c s =
      (if c = Js.toUpper c then
        Js.toUpper (CaesarCipher.getValueChar
          (Js.jsRem (CaesarCipher.getCharValue c + s) 26))
      else
        Js.toLower (CaesarCipher.getValueChar
          (Js.jsRem (CaesarCipher.getCharValue c + s) 26))) := by
  simp only [CaesarCipher.encodeChar, h, Bool.not_true, Bool.false_eq_true, if_false]

theorem decodeChar_of_letter (c : Char) (s : Nat)
    (h : CaesarCipher.isLatinLetter c = true) :
    CaesarCipher.decodeChar c s =
      (if c = Js.toUpper c then
        Js.toUpper (CaesarCipher.getValueChar
          (Js.jsRem (Js.jsRem (CaesarCipher.getCharValue c - s) 26 + 26) 26))
      else
        Js.toLower (CaesarCipher.getValueChar
          (Js.jsRem (Js.jsRem (CaesarCipher.getCharValue c - s) 26 + 26) 26))) := by
  simp only [CaesarCipher.decodeChar, h, Bool.not_true, Bool.false_eq_true, if_false]

theorem encodeChar_passthrough (c : Char) (s : Nat)
    (h : CaesarCipher.isLatinLetter c = false) :
    CaesarCipher.encodeChar c s = c := by
  simp [CaesarCipher.encodeChar, h]

theorem decodeChar_passthrough (c : Char) (s : Nat)
    (h : CaesarCipher.isLatinLetter c = false) :
    CaesarCipher.decodeChar c s = c := by
  simp [CaesarCipher.decodeChar, h]

theorem encodeVnChar_of_found (c : Char) (s : Nat)
    (h : ¬ CaesarCipher.getVnCharValue c = -1) :
    CaesarCipher.encodeVnChar c s =
      (if c = Js.toUpper c then
        Js.toUpper (CaesarCipher.getVnValueChar
          (Js.jsRem (CaesarCipher.getVnCharValue c + s) 29))
      else
        Js.toLower (CaesarCipher.getVnValueChar
          (Js.jsRem (CaesarCipher.getVnCharValue c + s) 29))) := by
  simp only [CaesarCipher.encodeVnChar, CaesarCipher.getVnCharValue] at h ⊢
  rw [if_neg h]

theorem decodeVnChar_of_found (c : Char) (s : Nat)
    (h : ¬ CaesarCipher.getVnCharValue c = -1) :
    CaesarCipher.decodeVnChar c s =
      (if c = Js.toUpper c then
        Js.toUpper (CaesarCipher.getVnValueChar
          (Js.jsRem (Js.jsRem (CaesarCipher.getVnCharValue c - s) 29 + 29) 29))
      else
        Js.toLower (CaesarCipher.getVnValueChar
          (Js.jsRem (Js.jsRem (CaesarCipher.getVnCharValue c - s) 29 + 29) 29))) := by
  simp only [CaesarCipher.decodeVnChar, CaesarCipher.getVnCharValue] at h ⊢
  rw [if_neg h]

theorem encodeVnChar_passthrough (c : Char) (s : Nat)
    (h : CaesarCipher.getVnCharValue c = -1) :
    CaesarCipher.encodeVnChar c s = c := by
  simp only [CaesarCipher.encodeVnChar, CaesarCipher.getVnCharValue] at h ⊢
  rw [if_pos h]

theorem decodeVnChar_passthrough (c : Char) (s : Nat)
    (h : CaesarCipher.getVnCharValue c = -1) :
    CaesarCipher.decodeVnChar c s = c := by
  simp only [CaesarCipher.decodeVnChar, CaesarCipher.getVnCharValue] at h ⊢
  rw [if_pos h]

/-- `getValueChar` at a nonnegative index below 26 picks that alphabet letter. -/
theorem getValueChar_cast (j : Nat) (hj : j < 26) :
    CaesarCipher.getValueChar ((j : Nat) : Int) = CaesarCipher.latinUpper j := by
  simp only [CaesarCipher.getValueChar]
  rw [norm_emod26]
  have h1 : (((j : Nat) : Int) % 26).toNat = j := by omega
  rw [h1]
  rfl

theorem getVnValueChar_cast (j : Nat) (hj : j < 29) :
    CaesarCipher.getVnValueChar ((j : Nat) : Int) = CaesarCipher.vnUpperChar j := by
  simp only [CaesarCipher.getVnValueChar]
  rw [norm_emod29]
  have h1 : (((j : Nat) : Int) % 29).toNat = j := by omega
  rw [h1]
  rfl

/-! Per-character encode/decode behaviour on alphabet letters. -/

theorem encodeChar_latinUpper (k s : Nat) (hk : k < 26) :
    CaesarCipher.encodeChar (CaesarCipher.latinUpper k) s
      = CaesarCipher.latinUpper ((k + s) % 26) := by
  rw [encodeChar_of_letter _ _ (lat_letter_upper k hk), lat_value_upper k hk]
  have h1 : ((k : Nat) : Int) + (s : Int) = (((k + s : Nat)) : Int) := by push_cast; ring
  rw [h1, jsRem_cast26, getValueChar_cast _ (by omega)]
  rw [if_pos (lat_toUpper_upper k hk).symm]
  exact lat_toUpper_upper _ (by omega)

theorem encodeChar_latinLower (k s : Nat) (hk : k < 26) :
    CaesarCipher.encodeChar (CaesarCipher.latinLower k) s
      = CaesarCipher.latinLower ((k + s) % 26) := by
  rw [encodeChar_of_letter _ _ (lat_letter_lower k hk), lat_value_lower k hk]
  have h1 : ((k : Nat) : Int) + (s : Int) = (((k + s : Nat)) : Int) := by push_cast; ring
  rw [h1, jsRem_cast26, getValueChar_cast _ (by omega)]
  have hne : ¬ CaesarCipher.latinLower k = Js.toUpper (CaesarCipher.latinLower k) := by
    rw [lat_toUpper_lower k hk]
    exact lat_lower_ne k hk
  rw [if_neg hne]
  rfl

theorem decodeChar_latinUpper (j s : Nat) (hj : j < 26) :
    CaesarCipher.decodeChar (CaesarCipher.latinUpper j) s
      = CaesarCipher.latinUpper ((((j : Nat) : Int) - s) % 26).toNat := by
  rw [decodeChar_of_letter _ _ (lat_letter_upper j hj), lat_value_upper j hj]
  rw [norm_emod26]
  have hw : (((j : Nat) : Int) - s) % 26 = (((((j : Nat) : Int) - s) % 26).toNat : Int) := by
    omega
  rw [hw, getValueChar_cast _ (by omega)]
  rw [if_pos (lat_toUpper_upper j hj).symm]
  exact lat_toUpper_upper _ (by omega)

theorem decodeChar_latinLower (j s : Nat) (hj : j < 26) :
    CaesarCipher.decodeChar (CaesarCipher.latinLower j) s
      = CaesarCipher.latinLower ((((j : Nat) : Int) - s) % 26).toNat := by
  rw [decodeChar_of_letter _ _ (lat_letter_lower j hj), lat_value_lower j hj]
  rw [norm_emod26]
  have hw : (((j : Nat) : Int) - s) % 26 = (((((j : Nat) : Int) - s) % 26).toNat : Int) := by
    omega
  rw [hw, getValueChar_cast _ (by omega)]
  have hne : ¬ CaesarCipher.latinLower j = Js.toUpper (CaesarCipher.latinLower j) := by
    rw [lat_toUpper_lower j hj]
    exact lat_lower_ne j hj
  rw [if_neg hne]
  rfl

theorem encodeVnChar_vnUpper (k s : Nat) (hk : k < 29) :
    CaesarCipher.encodeVnChar (CaesarCipher.vnUpperChar k) s
      = CaesarCipher.vnUpperChar ((k + s) % 29) := by
  have hge : ¬ CaesarCipher.getVnCharValue (CaesarCipher.vnUpperChar k) = -1 := by
    rw [vn_value_upper k hk]; omega
  rw [encodeVnChar_of_found _ _ hge, vn_value_upper k hk]
  have h1 : ((k : Nat) : Int) + (s : Int) = (((k + s : Nat)) : Int) := by push_cast; ring
  rw [h1, jsRem_cast29, getVnValueChar_cast _ (by omega)]
  rw [if_pos (vn_toUpper_upper k hk).symm]
  exact vn_toUpper_upper _ (by omega)

theorem encodeVnChar_vnLower (k s : Nat) (hk : k < 29) :
    CaesarCipher.encodeVnChar (CaesarCipher.vnLowerChar k) s
      = CaesarCipher.vnLowerChar ((k + s) % 29) := by
  have hge : ¬ CaesarCipher.getVnCharValue (CaesarCipher.vnLowerChar k) = -1 := by
    rw [vn_value_lower k hk]; omega
  rw [encodeVnChar_of_found _ _ hge, vn_value_lower k hk]
  have h1 : ((k : Nat) : Int) + (s : Int) = (((k + s : Nat)) : Int) := by push_cast; ring
  rw [h1, jsRem_cast29, getVnValueChar_cast _ (by omega)]
  have hne : ¬ CaesarCipher.vnLowerChar k = Js.toUpper (CaesarCipher.vnLowerChar k) := by
    rw [vn_toUpper_lower k hk]
    exact vn_lower_ne k hk
  rw [if_neg hne]
  rfl

theorem decodeVnChar_vnUpper (j s : Nat) (hj : j < 29) :
    CaesarCipher.decodeVnChar (CaesarCipher.vnUpperChar j) s
      = CaesarCipher.vnUpperChar ((((j : Nat) : Int) - s) % 29).toNat := by
  have hge : ¬ CaesarCipher.getVnCharValue (CaesarCipher.vnUpperChar j) = -1 := by
    rw [vn_value_upper j hj]; omega
  rw [decodeVnChar_of_found _ _ hge, vn_value_upper j hj]
  rw [norm_emod29]
  have hw : (((j : Nat) : Int) - s) % 29 = (((((j : Nat) : Int) - s) % 29).toNat : Int) := by
    omega
  rw [hw, getVnValueChar_cast _ (by omega)]
  rw [if_pos (vn_toUpper_upper j hj).symm]
  exact vn_toUpper_upper _ (by omega)

theorem decodeVnChar_vnLower (j s : Nat) (hj : j < 29) :
    CaesarCipher.decodeVnChar (CaesarCipher.vnLowerChar j) s
      = CaesarCipher.vnLowerChar ((((j : Nat) : Int) - s) % 29).toNat := by
  have hge : ¬ CaesarCipher.getVnCharValue (CaesarCipher.vnLowerChar j) = -1 := by
    rw [vn_value_lower j hj]; omega
  rw [decodeVnChar_of_found _ _ hge, vn_value_lower j hj]
  rw [norm_emod29]
  have hw : (((j : Nat) : Int) - s) % 29 = (((((j : Nat) : Int) - s) % 29).toNat : Int) := by
    omega
  rw [hw, getVnValueChar_cast _ (by omega)]
  have hne : ¬ CaesarCipher.vnLowerChar j = Js.toUpper (CaesarCipher.vnLowerChar j) := by
    rw [vn_toUpper_lower j hj]
    exact vn_lower_ne j hj
  rw [if_neg hne]
  rfl

/-! Per-character round trips. -/

theorem latin_char_roundtrip (c : Char) (s : Nat) :
    CaesarCipher.decodeChar (CaesarCipher.encodeChar c s) s = c := by
  by_cases h : CaesarCipher.isLatinLetter c = true
  · obtain ⟨k, hk, hc | hc⟩ := latin_bridge c h
    · rw [hc, encodeChar_latinUpper k s hk, decodeChar_latinUpper _ s (by omega)]
      congr 1
      omega
    · rw [hc, encodeChar_latinLower k s hk, decodeChar_latinLower _ s (by omega)]
      congr 1
      omega
  · have h' : CaesarCipher.isLatinLetter c = false := by
      simpa using h
    rw [encodeChar_passthrough c s h', decodeChar_passthrough c s h']

theorem vn_char_roundtrip (c : Char) (s : Nat)
    (hfix : CaesarCipher.removeDiacriticsChar c = c) :
    CaesarCipher.decodeVnChar (CaesarCipher.encodeVnChar c s) s = c := by
  by_cases h : CaesarCipher.getVnCharValue c = -1
  · rw [encodeVnChar_passthrough c s h, decodeVnChar_passthrough c s h]
  · obtain ⟨j, hj, hc | hc⟩ := vn_bridge c hfix h
    · rw [hc, encodeVnChar_vnUpper j s hj, decodeVnChar_vnUpper _ s (by omega)]
      congr 1
      omega
    · rw [hc, encodeVnChar_vnLower j s hj, decodeVnChar_vnLower _ s (by omega)]
      congr 1
      omega

/-! ### C3

The Latin round-trip and both non-alphabet invariance statements hold, but the
Vietnamese round-trip fails on characters carrying tonal diacritics: encoding
first maps them to their base letter (`removeDiacritics`), and decoding cannot
restore the lost tone mark. -/

/-- C3 counterexample: encoding `"á"` with shift 1 yields `"ă"`, and decoding
that yields the base letter `"a"`, not the original `"á"`. -/
theorem claim_C3_counterexample :
    CaesarCipher.decodeVietnamese (CaesarCipher.encodeVietnamese "á".toList 1) 1
      = "a".toList
    ∧ "a".toList ≠ "á".toList := by
  constructor
  · decide
  · decide

set_option maxHeartbeats 2000000 in
/-- C3 (amended): decoding inverts encoding for every string and shift in
`[1, 25]` in the Latin alphabet; the same holds for the 29-symbol accented
alphabet for shifts in `[1, 28]` provided no character of the string carries a
tonal diacritic (i.e. `removeDiacritics` fixes every character); characters
rejected by the Latin letter test are invariant under `encode`/`decode`, and
characters whose diacritic-normalized uppercase form is not in the accented
alphabet are invariant under `encodeVietnamese`/`decodeVietnamese`. -/
theorem claim_C3_caesar_roundtrip :
    (∀ (x : List Char) (s : Nat), 1 ≤ s → s ≤ 25 →
      CaesarCipher.decode (CaesarCipher.encode x s) s = x)
    ∧ (∀ (x : List Char) (s : Nat), 1 ≤ s → s ≤ 28 →
        (∀ c ∈ x, CaesarCipher.removeDiacriticsChar c = c) →
        CaesarCipher.decodeVietnamese (CaesarCipher.encodeVietnamese x s) s = x)
    ∧ (∀ (c : Char) (s : Nat), CaesarCipher.isLatinLetter c = false →
        CaesarCipher.encodeChar c s = c ∧ CaesarCipher.decodeChar c s = c)
    ∧ (∀ (c : Char) (s : Nat), CaesarCipher.getVnCharValue c = -1 →
        CaesarCipher.encodeVnChar c s = c ∧ CaesarCipher.decodeVnChar c s = c) := by
  refine ⟨?_, ?_, ?_, ?_⟩
  · intro x s _ _
    induction x with
    | nil => rfl
    | cons c rest ih =>
      simp only [CaesarCipher.encode, CaesarCipher.decode, List.map_cons] at ih ⊢
      rw [latin_char_roundtrip c s, ih]
  · intro x s _ _ hfix
    induction x with
    | nil => rfl
    | cons c rest ih =>
      simp only [CaesarCipher.encodeVietnamese, CaesarCipher.decodeVietnamese,
        List.map_cons] at ih ⊢
      rw [vn_char_roundtrip c s (hfix c (List.mem_cons_self c rest)),
        ih (fun d hd => hfix d (List.mem_cons_of_mem c hd))]
  · intro c s h
    exact ⟨encodeChar_passthrough c s h, decodeChar_passthrough c s h⟩
  · intro c s h
    exact ⟨encodeVnChar_passthrough c s h, decodeVnChar_passthrough c s h⟩

set_option maxHeartbeats 2000000 in
set_option maxRecDepth 8000 in
/-- C3 witness: the amended statement at concrete inputs: the Latin round trip
on `"Az ?"` with shift 5, the Vietnamese round trip on the diacritic-free
`"Đương"` with shift 7, and the invariance of `'5'`. -/
theorem claim_C3_caesar_roundtrip_witness :
    CaesarCipher.decode (CaesarCipher.encode "Az ?".toList 5) 5 = "Az ?".toList
    ∧ CaesarCipher.decodeVietnamese
        (CaesarCipher.encodeVietnamese "Đương".toList 7) 7 = "Đương".toList
    ∧ CaesarCipher.encodeChar '5' 3 = '5'
    ∧ CaesarCipher.decodeVnChar '5' 3 = '5' :=
  ⟨claim_C3_caesar_roundtrip.1 _ 5 (by decide) (by decide),
   claim_C3_caesar_roundtrip.2.1 _ 7 (by decide) (by decide) (by decide),
   (claim_C3_caesar_roundtrip.2.2.1 '5' 3 (by decide)).1,
   (claim_C3_caesar_roundtrip.2.2.2 '5' 3 (by decide)).2⟩

/-! ### C6: correctness of `modInverseWithSteps` -/

/-- Loop invariant preservation for the extended Euclidean loop.  The
invariants carried through the `while (r2 > 0)` loop, relative to the call
`modInverseWithSteps a m`:  both Bézout congruences `a·t ≡ r (mod m)`, the
alternating signs of the coefficients, the determinant identity
`r1·|t2| + r2·|t1| = m`, positivity of `r1`, the bound `|t1| ≤ m`, and
preservation of the gcd. -/
theorem euclidLoop_correct (a m : Nat) :
    ∀ (fuel : Nat) (r1 r2 : Nat) (t1 t2 : Int)
      (acc : List RsaCipher.EuclideanStep),
      r2 < fuel →
      Int.ModEq (m : Int) ((a : Int) * t1) (r1 : Int) →
      Int.ModEq (m : Int) ((a : Int) * t2) (r2 : Int) →
      t1 * t2 ≤ 0 →
      r1 * t2.natAbs + r2 * t1.natAbs = m →
      1 ≤ r1 →
      t1.natAbs ≤ m →
      Nat.gcd r1 r2 = Nat.gcd m a →
      Int.ModEq (m : Int)
          ((a : Int) * (RsaCipher.euclidLoop fuel r1 r2 t1 t2 acc).1)
          ((Nat.gcd m a : Nat) : Int)
      ∧ (RsaCipher.euclidLoop fuel r1 r2 t1 t2 acc).1.natAbs ≤ m := by
  intro fuel
  induction fuel with
  | zero => intro r1 r2 t1 t2 acc hlt; omega
  | succ fuel ih =>
    intro r1 r2 t1 t2 acc hlt h1 h2 h3 h4 h5 h6 h7
    by_cases hr2 : 0 < r2
    · simp only [RsaCipher.euclidLoop, if_pos hr2]
      have hdm := Nat.div_add_mod r1 r2
      have hmlt : r1 % r2 < r2 := Nat.mod_lt _ hr2
      have hqle : r1 / r2 * r2 ≤ r1 := Nat.div_mul_le_self r1 r2
      have hcomm : r1 / r2 * r2 = r2 * (r1 / r2) := Nat.mul_comm _ _
      have hrval : r1 - r1 / r2 * r2 = r1 % r2 := by omega
      -- the new remainder cast to Int
      have hrcast : ((r1 - r1 / r2 * r2 : Nat) : Int)
          = (r1 : Int) - ((r1 / r2 : Nat) : Int) * (r2 : Int) := by
        push_cast [Nat.cast_sub hqle]
        ring
      -- |q·t2| = q·|t2|
      have hu : (((r1 / r2 : Nat) : Int) * t2).natAbs = r1 / r2 * t2.natAbs := by
        rw [Int.natAbs_mul, Int.natAbs_ofNat]
      -- t1 and q·t2 do not have strictly opposite signs
      have hq0 : (0 : Int) ≤ ((r1 / r2 : Nat) : Int) := Int.ofNat_nonneg _
      have hsign : t1 * (((r1 / r2 : Nat) : Int) * t2) ≤ 0 := by
        have : t1 * (((r1 / r2 : Nat) : Int) * t2)
            = ((r1 / r2 : Nat) : Int) * (t1 * t2) := by ring
        rw [this]
        exact mul_nonpos_of_nonneg_of_nonpos hq0 h3
      -- |t1 - q·t2| = |t1| + q·|t2|
      have habs : (t1 - ((r1 / r2 : Nat) : Int) * t2).natAbs
          = t1.natAbs + r1 / r2 * t2.natAbs := by
        rw [← hu]
        rcases mul_nonpos_iff.mp hsign with ⟨ha1, ha2⟩ | ⟨ha1, ha2⟩ <;> omega
      apply ih
      · omega
      · exact h2
      · -- a·(t1 - q·t2) ≡ r1 - q·r2 = new remainder
        have hstep := h1.sub (Int.ModEq.mul_left ((r1 / r2 : Nat) : Int) h2)
        have heq : (a : Int) * (t1 - ((r1 / r2 : Nat) : Int) * t2)
            = (a : Int) * t1 - ((r1 / r2 : Nat) : Int) * ((a : Int) * t2) := by ring
        rw [heq, hrcast]
        exact hstep
      · -- sign alternation
        have : t2 * (t1 - ((r1 / r2 : Nat) : Int) * t2)
            = t1 * t2 - ((r1 / r2 : Nat) : Int) * (t2 * t2) := by ring
        rw [this]
        have h2sq : (0 : Int) ≤ t2 * t2 := mul_self_nonneg t2
        nlinarith
      · -- determinant identity for the new state
        rw [habs]
        have harith : r2 * (r1 / r2) + (r1 - r1 / r2 * r2) = r1 := by omega
        calc r2 * (t1.natAbs + r1 / r2 * t2.natAbs)
              + (r1 - r1 / r2 * r2) * t2.natAbs
            = r2 * t1.natAbs
              + (r2 * (r1 / r2) + (r1 - r1 / r2 * r2)) * t2.natAbs := by ring
          _ = r2 * t1.natAbs + r1 * t2.natAbs := by rw [harith]
          _ = m := by omega
      · exact hr2
      · -- |t2| ≤ m
        have : t2.natAbs ≤ r1 * t2.natAbs := Nat.le_mul_of_pos_left _ (by omega)
        omega
      · -- gcd preservation
        rw [hrval, Nat.gcd_comm r2 (r1 % r2), ← Nat.gcd_rec r2 r1, Nat.gcd_comm r2 r1]
        exact h7
    · have hz : r2 = 0 := by omega
      subst hz
      simp only [RsaCipher.euclidLoop, if_neg hr2]
      constructor
      · have hgr : r1 = Nat.gcd m a := by
          rw [← h7]
          exact (Nat.gcd_zero_right r1).symm
        rw [← hgr]
        exact h1
      · exact h6

/-- C6: for `a ≥ 1`, `m > 1` with `gcd(a, m) = 1`, `modInverseWithSteps(a, m)`
returns `d` with `0 ≤ d < m` and `d·a ≡ 1 (mod m)` (the final `t1`, with `m`
added once if negative), and `modInverseWithSteps(a, 1)` returns `d = 0` with
an empty trace. -/
theorem claim_C6_modular_inverse :
    (∀ a m : Nat, 1 ≤ a → 1 < m → Nat.gcd a m = 1 →
      0 ≤ (RsaCipher.modInverseWithSteps a m).1
      ∧ (RsaCipher.modInverseWithSteps a m).1 < (m : Int)
      ∧ Int.ModEq (m : Int) ((RsaCipher.modInverseWithSteps a m).1 * a) 1)
    ∧ (∀ a : Nat, RsaCipher.modInverseWithSteps a 1 = (0, [])) := by
  constructor
  · intro a m ha hm hg
    have hg' : Nat.gcd m a = 1 := by rw [Nat.gcd_comm]; exact hg
    have hinit := euclidLoop_correct a m (a + 1) m a 0 1 [] (by omega)
      (by simp [Int.ModEq])
      (by simp [Int.ModEq])
      (by simp)
      (by simp)
      (by omega)
      (by simp)
      rfl
    rw [hg'] at hinit
    set t1f := (RsaCipher.euclidLoop (a + 1) m a 0 1 []).1 with ht1f
    obtain ⟨hmod, habs⟩ := hinit
    have hmod1 : Int.ModEq (m : Int) ((a : Int) * t1f) 1 := by
      simpa using hmod
    -- t1f = ±m is impossible: it would force m ∣ 1
    have hnotm : t1f ≠ (m : Int) ∧ t1f ≠ -(m : Int) := by
      constructor <;> intro heq
      · have h0 : Int.ModEq (m : Int) ((a : Int) * (m : Int)) 0 := by
          simp [Int.ModEq, Int.mul_emod_left]
        rw [heq] at hmod1
        have hdvd : (m : Int) ∣ 1 - 0 := (h0.symm.trans hmod1).dvd
        have hdvd1 : (m : Int) ∣ 1 := by simpa using hdvd
        have hle : (m : Int) ≤ 1 := Int.le_of_dvd (by omega) hdvd1
        omega
      · have h0 : Int.ModEq (m : Int) ((a : Int) * -(m : Int)) 0 := by
          have : (a : Int) * -(m : Int) = -(a : Int) * (m : Int) := by ring
          rw [this]
          simp [Int.ModEq, Int.mul_emod_left]
        rw [heq] at hmod1
        have hdvd : (m : Int) ∣ 1 - 0 := (h0.symm.trans hmod1).dvd
        have hdvd1 : (m : Int) ∣ 1 := by simpa using hdvd
        have hle : (m : Int) ≤ 1 := Int.le_of_dvd (by omega) hdvd1
        omega
    have hbound : -(m : Int) < t1f ∧ t1f < (m : Int) := by
      obtain ⟨hn1, hn2⟩ := hnotm
      omega
    have hres : RsaCipher.modInverseWithSteps a m
        = (if t1f < 0 then t1f + m else t1f,
           (RsaCipher.euclidLoop (a + 1) m a 0 1 []).2) := by
      simp only [RsaCipher.modInverseWithSteps, if_neg (by omega : ¬ m = 1)]
    rw [hres]
    by_cases hneg : t1f < 0
    · simp only [if_pos hneg]
      refine ⟨by omega, by omega, ?_⟩
      have hm0 : Int.ModEq (m : Int) ((a : Int) * (m : Int)) 0 := by
        simp [Int.ModEq, Int.mul_emod_left]
      have hsum := hmod1.add hm0
      have heq : (t1f + m) * a = (a : Int) * t1f + (a : Int) * (m : Int) := by ring
      rw [heq]
      simpa using hsum
    · simp only [if_neg hneg]
      refine ⟨by omega, by omega, ?_⟩
      have heq : t1f * a = (a : Int) * t1f := by ring
      rw [heq]
      exact hmod1
  · intro a
    rfl

/-- C6 witness: `modInverseWithSteps 3 20` returns `d = 7` with `0 ≤ 7 < 20`
and `7·3 ≡ 1 (mod 20)`, and `modInverseWithSteps 5 1 = (0, [])`. -/
theorem claim_C6_modular_inverse_witness :
    (0 ≤ (RsaCipher.modInverseWithSteps 3 20).1
      ∧ (RsaCipher.modInverseWithSteps 3 20).1 < ((20 : Nat) : Int)
      ∧ Int.ModEq ((20 : Nat) : Int) ((RsaCipher.modInverseWithSteps 3 20).1 * 3) 1)
    ∧ RsaCipher.modInverseWithSteps 5 1 = (0, []) :=
  ⟨claim_C6_modular_inverse.1 3 20 (by decide) (by decide) (by decide),
   claim_C6_modular_inverse.2 5⟩

/-! ### C7: shape of the extended Euclidean trace -/

/-- Each executed iteration of the loop appends a row whose fields satisfy the
defining relations, and the loop exits exactly when the freshly computed
remainder `r` (the next `r2`) reaches zero, so the last appended row has
`r = 0`. -/
theorem euclidLoop_rows :
    ∀ (fuel : Nat) (r1 r2 : Nat) (t1 t2 : Int)
      (acc : List RsaCipher.EuclideanStep),
      r2 < fuel →
      ((RsaCipher.euclidLoop fuel r1 r2 t1 t2 acc).2 = acc ∧ r2 = 0)
      ∨ (∃ extra, (RsaCipher.euclidLoop fuel r1 r2 t1 t2 acc).2 = acc ++ extra
          ∧ extra ≠ []
          ∧ (∀ st ∈ extra,
              st.q = st.r1 / st.r2 ∧ st.r = st.r1 - st.q * st.r2
              ∧ st.t = st.t1 - st.q * st.t2 ∧ 0 < st.r2)
          ∧ (∃ last, extra.getLast? = some last ∧ last.r = 0)) := by
  intro fuel
  induction fuel with
  | zero => intro r1 r2 t1 t2 acc hlt; omega
  | succ fuel ih =>
    intro r1 r2 t1 t2 acc hlt
    by_cases hr2 : 0 < r2
    · right
      simp only [RsaCipher.euclidLoop, if_pos hr2]
      have hdm := Nat.div_add_mod r1 r2
      have hmlt : r1 % r2 < r2 := Nat.mod_lt _ hr2
      have hqle : r1 / r2 * r2 ≤ r1 := Nat.div_mul_le_self r1 r2
      have hcomm : r1 / r2 * r2 = r2 * (r1 / r2) := Nat.mul_comm _ _
      have hrow : (⟨((r1 / r2 : Nat) : Int), (r1 : Int), (r2 : Int),
            ((r1 - r1 / r2 * r2 : Nat) : Int), t1, t2,
            t1 - ((r1 / r2 : Nat) : Int) * t2⟩ : RsaCipher.EuclideanStep).q
            = ((r1 : Int)) / ((r2 : Int))
          ∧ (((r1 - r1 / r2 * r2 : Nat) : Int)
              = (r1 : Int) - ((r1 / r2 : Nat) : Int) * (r2 : Int))
          ∧ (0 : Int) < (r2 : Int) := by
        refine ⟨Int.natCast_div r1 r2, ?_, by exact_mod_cast hr2⟩
        push_cast [Nat.cast_sub hqle]
        ring
      rcases ih r2 (r1 - r1 / r2 * r2) t2 (t1 - ((r1 / r2 : Nat) : Int) * t2)
          (acc ++ [⟨((r1 / r2 : Nat) : Int), (r1 : Int), (r2 : Int),
            ((r1 - r1 / r2 * r2 : Nat) : Int), t1, t2,
            t1 - ((r1 / r2 : Nat) : Int) * t2⟩]) (by omega)
        with ⟨hsteps, hr0⟩ | ⟨extra, hsteps, hne, hrel, last, hlast, hlr⟩
      · refine ⟨[⟨((r1 / r2 : Nat) : Int), (r1 : Int), (r2 : Int),
            ((r1 - r1 / r2 * r2 : Nat) : Int), t1, t2,
            t1 - ((r1 / r2 : Nat) : Int) * t2⟩], by rw [hsteps], by simp, ?_, ?_⟩
        · intro st hst
          rw [List.mem_singleton] at hst
          subst hst
          exact ⟨hrow.1, hrow.2.1, rfl, hrow.2.2⟩
        · refine ⟨_, rfl, ?_⟩
          show ((r1 - r1 / r2 * r2 : Nat) : Int) = 0
          rw [hr0]
          rfl
      · refine ⟨⟨((r1 / r2 : Nat) : Int), (r1 : Int), (r2 : Int),
            ((r1 - r1 / r2 * r2 : Nat) : Int), t1, t2,
            t1 - ((r1 / r2 : Nat) : Int) * t2⟩ :: extra, ?_, by simp, ?_, ?_⟩
        · rw [hsteps]
          simp
        · intro st hst
          rcases List.mem_cons.mp hst with rfl | hmem
          · exact ⟨hrow.1, hrow.2.1, rfl, hrow.2.2⟩
          · exact hrel st hmem
        · obtain ⟨d, ds, hds⟩ := List.exists_cons_of_ne_nil hne
          refine ⟨last, ?_, hlr⟩
          rw [hds, List.getLast?_cons_cons, ← hds]
          exact hlast
    · left
      have hz : r2 = 0 := by omega
      exact ⟨by simp [RsaCipher.euclidLoop, hr2], hz⟩

/-- C7: every row of the `modInverseWithSteps` trace satisfies
`q = ⌊r1 / r2⌋`, `r = r1 - q·r2` and `t = t1 - q·t2`; every recorded row was
produced with `r2 > 0` (the loop runs exactly while `r2 > 0`), and the final
row's fresh remainder is `0` (the loop stops exactly when `r2` becomes `0`). -/
theorem claim_C7_euclid_trace :
    ∀ a m : Nat,
      (∀ st ∈ (RsaCipher.modInverseWithSteps a m).2,
        st.q = st.r1 / st.r2 ∧ st.r = st.r1 - st.q * st.r2
        ∧ st.t = st.t1 - st.q * st.t2 ∧ 0 < st.r2)
      ∧ (∀ last, (RsaCipher.modInverseWithSteps a m).2.getLast? = some last →
          last.r = 0) := by
  intro a m
  by_cases hm : m = 1
  · subst hm
    constructor
    · intro st hst
      simp [RsaCipher.modInverseWithSteps] at hst
    · intro last hlast
      simp [RsaCipher.modInverseWithSteps] at hlast
  · have hsteps2 : (RsaCipher.modInverseWithSteps a m).2
        = (RsaCipher.euclidLoop (a + 1) m a 0 1 []).2 := by
      simp only [RsaCipher.modInverseWithSteps, if_neg hm]
    rcases euclidLoop_rows (a + 1) m a 0 1 [] (by omega)
      with ⟨hsteps, _⟩ | ⟨extra, hsteps, _, hrel, last, hlast, hlr⟩
    · rw [hsteps2, hsteps]
      constructor
      · intro st hst; simp at hst
      · intro l hl; simp at hl
    · rw [hsteps2, hsteps]
      constructor
      · intro st hst
        exact hrel st (by simpa using hst)
      · intro l hl
        simp only [List.nil_append] at hl
        rw [hlast] at hl
        cases hl
        exact hlr

/-- C7 witness: the first and last rows of the trace of
`modInverseWithSteps 3 20` satisfy the relations and the termination property. -/
theorem claim_C7_euclid_trace_witness :
    ((6 : Int) = 20 / 3 ∧ (2 : Int) = 20 - 6 * 3 ∧ (-6 : Int) = 0 - 6 * 1
      ∧ (0 : Int) < 3)
    ∧ (⟨2, 2, 1, 0, -6, 7, -20⟩ : RsaCipher.EuclideanStep).r = 0 :=
  ⟨(claim_C7_euclid_trace 3 20).1 ⟨6, 20, 3, 2, 0, 1, -6⟩ (by decide),
   (claim_C7_euclid_trace 3 20).2 ⟨2, 2, 1, 0, -6, 7, -20⟩ (by decide)⟩
